import Mathlib

/-!
Verification of the BTrack real-time beat tracker (src/BTrack.cpp).

The C++ source is embedded shallowly: doubles become real numbers, member
functions become functions on an explicit `State` record, and the external
collaborators (the libsamplerate resampler and the FFT backend used by the
autocorrelation) become function parameters, matching the "external
collaborator" contracts of the specification.  The C library function
`round` (round half away from zero) is modelled by `cround`.
-/

namespace BTrack

noncomputable section

/-- C `round`: round half away from zero.  Mathlib `round` rounds half up, so
the two agree on non-negative arguments and are mirrored on negative ones. -/
def cround (x : ℝ) : ℤ := if 0 ≤ x then round x else -round (-x)

/-- Modelled from the spec: `CircularBuffer::addSampleToEnd` is code of this
repository that is not under src/ (only BTrack.cpp is).  Spec 4.1: addSample
conceptually shifts all elements one position toward index 0 and inserts the
new value at the last index; index 0 is the oldest value in the window. -/
def addSampleToEnd (v : ℝ) (l : List ℝ) : List ℝ := l.drop 1 ++ [v]

/-- BTrack::initialise: `tightness = 5`. -/
def tightness : ℝ := 5

/-- BTrack::initialise: `alpha = 0.9`. -/
def alpha : ℝ := 0.9

/-- BTrack::initialise: `tempoToLagFactor = 60. * 44100. / 512.`. -/
def tempoToLagFactor : ℝ := 60 * 44100 / 512

/-- BTrack::calculateMeanOfVector: sums the slice `[startIndex, endIndex)` and
divides by its length, returning 0 when the range is empty (or reversed). -/
def calculateMeanOfVector (v : List ℝ) (startIndex endIndex : ℕ) : ℝ :=
  if startIndex < endIndex then
    ((v.drop startIndex).take (endIndex - startIndex)).sum / ((endIndex - startIndex : ℕ) : ℝ)
  else 0

/-- The threshold value that BTrack::adaptiveThreshold leaves at index `i`
after its three loops have run (for `N ≤ 7` the C++ writes past the end of a
stack array, which is undefined behaviour; the claims only use `N ≥ 8`).
The three loops are, in program order:
  for `i ≤ t` (with `t = min (N, 7)`): `calculateMeanOfVector (x, 1, min (i+8, N))`;
  for `t < i < N - 7`:                 `calculateMeanOfVector (x, i-8, i+7)`;
  for `N - 7 ≤ i < N`:                 `calculateMeanOfVector (x, max (i-7, 1), N)`,
and the third loop overwrites the first where their ranges overlap, so the
tail rule wins for `i ≥ N - 7`. -/
def adaptiveThresholdValue (x : List ℝ) (i : ℕ) : ℝ :=
  let N := x.length
  if N - 7 ≤ i then calculateMeanOfVector x (max (i - 7) 1) N
  else if i ≤ min N 7 then calculateMeanOfVector x 1 (min (i + 8) N)
  else calculateMeanOfVector x (i - 8) (i + 7)

/-- BTrack::adaptiveThreshold: subtract the local threshold from every sample
and clamp negative results to 0 (`if (x[i] < 0) x[i] = 0`). -/
def adaptiveThreshold (x : List ℝ) : List ℝ :=
  List.ofFn (n := x.length) fun i => max 0 (x.getD (i : ℕ) 0 - adaptiveThresholdValue x (i : ℕ))

/-- BTrack::normaliseVector: divide every entry by the sum, but only when the
sum is strictly positive (`if (sum > 0)`). -/
def normaliseVector (v : List ℝ) : List ℝ :=
  if 0 < v.sum then v.map (fun x => x / v.sum) else v

/-- Read `acf[k]` for an integer index; the C++ read is undefined behaviour
out of range, modelled by a default of 0 (all indices used by the comb
filterbank are in range for a 512-entry acf). -/
def acfAt (acf : List ℝ) (k : ℤ) : ℝ := if 0 ≤ k then acf.getD k.toNat 0 else 0

/-- BTrack::calculateBalancedACF.  The forward and backward 1024-point
transforms are the external transform collaborator, passed as parameters
`fftF` and `fftB`.  The input is zero padded from 512 to 1024 samples, each
bin of the forward transform is replaced by its squared magnitude with zero
imaginary part, the backward transform is applied, and the magnitude of each
of the first 512 bins is divided by the decreasing lag (512 down to 1) and by
the fixed constant 1024. -/
def calculateBalancedACF (fftF fftB : List (ℝ × ℝ) → List (ℝ × ℝ)) (x : List ℝ) : List ℝ :=
  let input := List.ofFn (n := 1024) fun i => ((if (i : ℕ) < 512 then x.getD (i : ℕ) 0 else 0), (0 : ℝ))
  let power := (fftF input).map fun c => (c.1 * c.1 + c.2 * c.2, (0 : ℝ))
  let out := fftB power
  List.ofFn (n := 512) fun i =>
    Real.sqrt ((out.getD (i : ℕ) (0, 0)).1 * (out.getD (i : ℕ) (0, 0)).1 +
               (out.getD (i : ℕ) (0, 0)).2 * (out.getD (i : ℕ) (0, 0)).2) /
      (512 - (i : ℕ) : ℝ) / 1024

/-- BTrack::calculateOutputOfCombFilterBank.  The output is filled with zeros
and then, for every candidate period `i` from 2 to 127, slot `i - 1`
accumulates `acf[(a*i+b)-1] * weightingVector[i-1] / (2*a-1)` over the comb
elements `a = 1..4` and offsets `b = 1-a .. a-1`; slots 0 and 127 are never
written and stay 0.  Slot `j` of the result therefore corresponds to
candidate period `j + 1`. -/
def calculateOutputOfCombFilterBank (acf w : List ℝ) : List ℝ :=
  List.ofFn (n := 128) fun j =>
    if 1 ≤ (j : ℕ) ∧ (j : ℕ) ≤ 126 then
      ∑ a in Finset.Icc (1 : ℕ) 4, ∑ b in Finset.Icc (1 - (a : ℤ)) ((a : ℤ) - 1),
        acfAt acf ((a : ℤ) * ((j : ℕ) + 1) + b - 1) * w.getD (j : ℕ) 0 / (2 * (a : ℝ) - 1)
    else 0

/-- The BTrack engine state: every member variable of the C++ class that the
algorithm reads or writes.  Buffers are lists with index 0 oldest;
`onsetDFBufferSize` is the configured capacity of the two sliding buffers. -/
structure State where
  hopSize : ℤ
  onsetDFBufferSize : ℕ
  beatPeriod : ℝ
  onsetDF : List ℝ
  cumulativeScore : List ℝ
  latestCumulativeScoreValue : ℝ
  m0 : ℤ
  beatCounter : ℤ
  beatDueInFrame : Bool
  estimatedTempo : ℝ
  resampledOnsetDF : List ℝ
  acf : List ℝ
  weightingVector : List ℝ
  combFilterBankOutput : List ℝ
  tempoObservationVector : List ℝ
  delta : List ℝ
  prevDelta : List ℝ
  prevDeltaFixed : List ℝ
  tempoTransitionMatrix : ℕ → ℕ → ℝ
  tempoFixed : Bool

/-- BTrack::updateCumulativeScore and BTrack::predictBeat:
`windowStart = B - round (2 * beatPeriod)` for a window ending at buffer
position `B` (no clamping of any kind is applied in the C++). -/
def cumulativeScoreWindowStart (B : ℤ) (P : ℝ) : ℤ := B - cround (2 * P)

/-- BTrack::updateCumulativeScore and BTrack::predictBeat:
`windowEnd = B - round (beatPeriod / 2)` (unclamped). -/
def cumulativeScoreWindowEnd (B : ℤ) (P : ℝ) : ℤ := B - cround (P / 2)

/-- The set of score-buffer indices read by the backward window of the
cumulative-score recurrence: every integer from `windowStart` to `windowEnd`
inclusive, exactly as the C++ loop `for (i = windowStart; i <= windowEnd; i++)`
visits them, with no bounds check. -/
def scoreWindowIndices (B : ℤ) (P : ℝ) : Finset ℤ :=
  Finset.Icc (cumulativeScoreWindowStart B P) (cumulativeScoreWindowEnd B P)

/-- Read a score buffer at an integer index.  An out-of-range read is
undefined behaviour in the C++ (no clamp exists); it is modelled by 0 here so
that the functions stay total. -/
def getScore (l : List ℝ) (k : ℤ) : ℝ :=
  if 0 ≤ k ∧ k < (l.length : ℤ) then l.getD k.toNat 0 else 0

/-- The log-Gaussian transition weighting `w1` of updateCumulativeScore and
predictBeat: entry `n` is built from `v = -2 * beatPeriod + n`, as
`exp (-(tightness * log (-v / beatPeriod))^2 / 2)`. -/
def logGaussianWeight (P : ℝ) (n : ℕ) : ℝ :=
  Real.exp (-(tightness * Real.log (-(-2 * P + (n : ℝ)) / P)) ^ 2 / 2)

/-- BTrack::updateCumulativeScore: take the maximum of
`cumulativeScore[i] * w1[n]` over the backward window (the loop keeps a
running `maxValue` initialised to 0), blend it with the onset sample as
`(1 - alpha) * onset + alpha * max`, store it in
`latestCumulativeScoreValue` and append it to the score buffer. -/
def updateCumulativeScore (odfSample : ℝ) (s : State) : State :=
  let B : ℤ := s.onsetDFBufferSize
  let wStart := cumulativeScoreWindowStart B s.beatPeriod
  let wEnd := cumulativeScoreWindowEnd B s.beatPeriod
  let maxValue := List.foldl
    (fun m (n : ℕ) =>
      max m (getScore s.cumulativeScore (wStart + (n : ℤ)) * logGaussianWeight s.beatPeriod n))
    0 (List.range (wEnd - wStart + 1).toNat)
  let latest := (1 - alpha) * odfSample + alpha * maxValue
  { s with latestCumulativeScoreValue := latest,
           cumulativeScore := addSampleToEnd latest s.cumulativeScore }

/-- BTrack::predictBeat: the forward Gaussian beat-expectation window `W2`,
centred half a beat period ahead; entry `n` uses `v = n + 1`. -/
def beatExpectationWeight (P : ℝ) (n : ℕ) : ℝ :=
  Real.exp (-((n : ℝ) + 1 - P / 2) ^ 2 / (2 * (P / 2) ^ 2))

/-- One step of the future cumulative-score synthesis of BTrack::predictBeat:
with `i` the next position (the current length of the extended buffer), read
the backward window `[i - round (2 P), i - round (P / 2)]`, weight it with
the log-Gaussian transition weighting and append the maximum. -/
def extendFutureOnce (P : ℝ) (l : List ℝ) : List ℝ :=
  let lo := cumulativeScoreWindowStart (l.length : ℤ) P
  let hi := cumulativeScoreWindowEnd (l.length : ℤ) P
  l ++ [List.foldl (fun m (n : ℕ) => max m (getScore l (lo + (n : ℤ)) * logGaussianWeight P n))
          0 (List.range (hi - lo + 1).toNat)]

/-- BTrack::predictBeat: extend the score buffer by `(int) beatPeriod` future
positions, weight the extension by the beat-expectation window, and take the
arg-max position as the new `beatCounter` (the loop only assigns
`beatCounter = n` when a strictly larger weighted value is found, so with an
all-zero extension the counter keeps its decremented value); finally
reschedule `m0 = beatCounter + round (beatPeriod / 2)`.  The C cast
`(int) beatPeriod` truncates toward zero, i.e. is the floor for the
non-negative beat periods the tracker produces. -/
def predictBeat (s : State) : State :=
  let bw : ℕ := (⌊s.beatPeriod⌋).toNat
  let fcs := (extendFutureOnce s.beatPeriod)^[bw] s.cumulativeScore
  let B : ℕ := s.onsetDFBufferSize
  let r := List.foldl
    (fun (p : ℝ × ℤ) n =>
      if fcs.getD (B + n) 0 * beatExpectationWeight s.beatPeriod n > p.1 then
        (fcs.getD (B + n) 0 * beatExpectationWeight s.beatPeriod n, (n : ℤ))
      else p)
    (0, s.beatCounter) (List.range bw)
  { s with beatCounter := r.2, m0 := r.2 + cround (s.beatPeriod / 2) }

/-- BTrack::calculateTempo, observation step: bin `i` of the tempo
observation vector sums the comb-filter values at the lags of `80 + 2 i` BPM
and `160 + 4 i` BPM (`(int) round (tempoToLagFactor / bpm)`, then index
`- 1`). -/
def tempoObservationAt (comb : List ℝ) (i : ℕ) : ℝ :=
  comb.getD ((cround (tempoToLagFactor / (2 * (i : ℝ) + 80))).toNat - 1) 0 +
  comb.getD ((cround (tempoToLagFactor / (4 * (i : ℝ) + 160))).toNat - 1) 0

/-- BTrack::calculateTempo, forward step before normalisation: entry `j` is
the loop maximum (running `maxValue` initialised to -1) of
`prevDelta[i] * tempoTransitionMatrix[i][j]` over `i = 0..40`, multiplied by
`tempoObservationVector[j]`. -/
def deltaUnnormalised (pd : List ℝ) (T : ℕ → ℕ → ℝ) (obs : List ℝ) : List ℝ :=
  List.ofFn (n := 41) fun j =>
    (List.foldl (fun m i => max m (pd.getD i 0 * T i (j : ℕ))) (-1) (List.range 41)) *
      obs.getD (j : ℕ) 0

/-- The arg-max loop of BTrack::calculateTempo: running pair
`(maxIndex, maxValue)` initialised to `(-1, -1)`, replaced whenever a
strictly larger entry is found. -/
def argmaxLoop (d : List ℝ) (n : ℕ) : ℤ × ℝ :=
  List.foldl (fun p j => if d.getD j 0 > p.2 then ((j : ℤ), d.getD j 0) else p)
    (-1, -1) (List.range n)

/-- BTrack::calculateTempo, first stages: threshold the resampled onset
function, autocorrelate it (via the external transform parameters), run the
comb filterbank and threshold its output in place. -/
def calcComb (fftF fftB : List (ℝ × ℝ) → List (ℝ × ℝ)) (s : State) : List ℝ :=
  adaptiveThreshold (calculateOutputOfCombFilterBank
    (calculateBalancedACF fftF fftB (adaptiveThreshold s.resampledOnsetDF)) s.weightingVector)

/-- BTrack::calculateTempo: the 41-bin tempo observation vector built from
the thresholded comb output. -/
def calcObs (fftF fftB : List (ℝ × ℝ) → List (ℝ × ℝ)) (s : State) : List ℝ :=
  List.ofFn (n := 41) fun i => tempoObservationAt (calcComb fftF fftB s) (i : ℕ)

/-- BTrack::calculateTempo: the normalised one-step forward update.  When
`tempoFixed` the C++ first overwrites `prevDelta` with `prevDeltaFixed`, so
the update always starts from the pinned vector in that case. -/
def calcDelta (fftF fftB : List (ℝ × ℝ) → List (ℝ × ℝ)) (s : State) : List ℝ :=
  normaliseVector (deltaUnnormalised
    (if s.tempoFixed then s.prevDeltaFixed else s.prevDelta)
    s.tempoTransitionMatrix (calcObs fftF fftB s))

/-- BTrack::calculateTempo: the arg-max bin of the updated state vector. -/
def calcMaxIndex (fftF fftB : List (ℝ × ℝ) → List (ℝ × ℝ)) (s : State) : ℤ :=
  (argmaxLoop (calcDelta fftF fftB s) 41).1

/-- BTrack::calculateTempo.  Thresholds the resampled onset function,
autocorrelates it (via the external transform parameters), computes and
thresholds the comb filterbank output, builds the 41-bin observation vector,
runs the one-step max-product update against the transition matrix (using the
pinned state when `tempoFixed`), normalises, copies the result into
`prevDelta`, and derives the beat period from the arg-max bin
(`round (60*44100 / ((2*maxIndex + 80) * hopSize))`); the BPM estimate is
refreshed only when the new beat period is positive. -/
def calculateTempo (fftF fftB : List (ℝ × ℝ) → List (ℝ × ℝ)) (s : State) : State :=
  { s with resampledOnsetDF := adaptiveThreshold s.resampledOnsetDF,
           acf := calculateBalancedACF fftF fftB (adaptiveThreshold s.resampledOnsetDF),
           combFilterBankOutput := calcComb fftF fftB s,
           tempoObservationVector := calcObs fftF fftB s,
           delta := calcDelta fftF fftB s,
           prevDelta := calcDelta fftF fftB s,
           beatPeriod :=
             ((cround ((60 * 44100) /
               ((2 * ((calcMaxIndex fftF fftB s) : ℝ) + 80) * (s.hopSize : ℝ)))) : ℝ),
           estimatedTempo :=
             if 0 < ((cround ((60 * 44100) /
                 ((2 * ((calcMaxIndex fftF fftB s) : ℝ) + 80) * (s.hopSize : ℝ)))) : ℝ) then
               60 / (((s.hopSize : ℝ) / 44100) *
                 ((cround ((60 * 44100) /
                   ((2 * ((calcMaxIndex fftF fftB s) : ℝ) + 80) * (s.hopSize : ℝ)))) : ℝ))
             else s.estimatedTempo }

/-- BTrack::setTempo and BTrack::fixTempo, first folding loop:
`while (tempo > 160) tempo = tempo / 2`.  Terminates for every real input. -/
def foldDown (t : ℝ) : ℝ :=
  if 160 < t then foldDown (t / 2) else t
termination_by (⌈t⌉).toNat
decreasing_by
  rename_i h
  have h2 : (0 : ℝ) < t := by linarith
  have hc : ⌈t / 2⌉ < ⌈t⌉ := by
    have h4 : ⌈t / 2⌉ ≤ ⌈t - ((80 : ℤ) : ℝ)⌉ := by
      apply Int.ceil_le_ceil
      push_cast
      linarith
    rw [Int.ceil_sub_int] at h4
    omega
  have hpos : 0 < ⌈t⌉ := Int.ceil_pos.mpr h2
  omega

/-- BTrack::setTempo and BTrack::fixTempo, second folding loop:
`while (tempo < 80) tempo = tempo * 2`.  The C++ loop does not terminate for
`tempo ≤ 0` (the spec requires positive tempo arguments), so the guard here
restricts the recursion to the terminating domain `0 < t`. -/
def foldUp (t : ℝ) : ℝ :=
  if 0 < t ∧ t < 80 then foldUp (2 * t) else t
termination_by (⌈80 / t⌉).toNat
decreasing_by
  rename_i h
  obtain ⟨h0, h80⟩ := h
  have hx : (1 : ℝ) < 80 / t := (one_lt_div h0).mpr h80
  have h2 : (2 : ℤ) ≤ ⌈80 / t⌉ := by
    have := Int.lt_ceil.mpr (by exact_mod_cast hx : ((1 : ℤ) : ℝ) < 80 / t)
    omega
  have key : ⌈80 / (2 * t)⌉ ≤ ⌈80 / t⌉ - 1 := by
    apply Int.ceil_le.mpr
    have he : 80 / (2 * t) = (80 / t) / 2 := by
      field_simp
      ring
    rw [he]
    have hle : 80 / t ≤ ((⌈80 / t⌉ : ℤ) : ℝ) := Int.le_ceil _
    have h2r : ((2 : ℤ) : ℝ) ≤ ((⌈80 / t⌉ : ℤ) : ℝ) := by exact_mod_cast h2
    push_cast at h2r ⊢
    linarith
  omega

/-- The folded tempo used by setTempo and fixTempo: first halve while above
160 BPM, then double while below 80 BPM. -/
def foldTempo (t : ℝ) : ℝ := foldUp (foldDown t)

/-- The state bin a folded tempo maps to: `(int) round ((tempo - 80) / 2)`. -/
def tempoIndexOf (t : ℝ) : ℤ := cround ((foldTempo t - 80) / 2)

/-- BTrack::setTempo: fold the tempo into 80-160 BPM, set `prevDelta` to the
one-hot vector at the tempo bin, overwrite both buffers with pulses of height
150 spaced at the new beat period (baseline 10, counting with `k` from the
newest position backwards), flag a beat for the current frame
(`beatCounter = 0`) and schedule the next prediction half a period ahead.
When the new beat period is below 1 the C++ `k` counter resets on every step
so every position receives 150. -/
def setTempo (tempo : ℝ) (s : State) : State :=
  let idx := tempoIndexOf tempo
  let newBeatPeriod := cround (60 / (((s.hopSize : ℝ) / 44100) * foldTempo tempo))
  let B := s.onsetDFBufferSize
  let seed : ℕ → ℝ := fun i =>
    if newBeatPeriod < 1 then 150
    else if ((B : ℤ) - 1 - (i : ℤ)) % newBeatPeriod = 0 then 150 else 10
  { s with prevDelta := (List.replicate 41 0).set idx.toNat 1,
           cumulativeScore := List.ofFn (n := B) fun i => seed (i : ℕ),
           onsetDF := List.ofFn (n := B) fun i => seed (i : ℕ),
           beatCounter := 0,
           m0 := cround ((newBeatPeriod : ℝ) / 2) }

/-- BTrack::fixTempo: fold the tempo into 80-160 BPM, set `prevDeltaFixed` to
the one-hot vector at the tempo bin and raise the `tempoFixed` flag. -/
def fixTempo (tempo : ℝ) (s : State) : State :=
  { s with prevDeltaFixed := (List.replicate 41 0).set (tempoIndexOf tempo).toNat 1,
           tempoFixed := true }

/-- BTrack::doNotFixTempo. -/
def doNotFixTempo (s : State) : State := { s with tempoFixed := false }

/-- BTrack::setHopSize: buffer size `(512 * 512) / hopSize` (C integer
division), initial beat period `round (60 / ((hopSize / 44100) * 120))`,
score buffer zeroed and onset buffer seeded with unit pulses at multiples of
the beat period (`i % (int) round (beatPeriod) == 0`; for hop sizes above
44100 the rounded beat period is 0 and the C++ modulo is undefined
behaviour). -/
def setHopSize (h : ℤ) (s : State) : State :=
  let B : ℕ := ((512 * 512 : ℤ) / h).toNat
  let bpz : ℤ := cround (60 / (((h : ℝ) / 44100) * 120))
  { s with hopSize := h, onsetDFBufferSize := B, beatPeriod := (bpz : ℝ),
           onsetDF := List.ofFn (n := B) fun i => if ((i : ℕ) : ℤ) % bpz = 0 then 1 else 0,
           cumulativeScore := List.replicate B 0 }

/-- BTrack::initialise: the Rayleigh weighting vector over the 128 candidate
beat periods, `(n / 43^2) * exp (-n^2 / (2 * 43^2))`. -/
def weightingVectorInit : List ℝ :=
  List.ofFn (n := 128) fun n =>
    ((n : ℕ) : ℝ) / 43 ^ 2 * Real.exp (-(-((n : ℕ) : ℝ)) ^ 2 / (2 * 43 ^ 2))

/-- BTrack::initialise: the fixed Gaussian tempo transition matrix.  In the
C++, `m_sig = 41/8` is integer arithmetic assigned to a double, so the
standard deviation is exactly 5, and pi is the literal 3.14159265. -/
def tempoTransitionMatrixInit : ℕ → ℕ → ℝ := fun i j =>
  1 / (5 * Real.sqrt (2 * (3.14159265 : ℝ))) *
    Real.exp (-((j : ℝ) + 1 - ((i : ℝ) + 1)) ^ 2 / (2 * 5 ^ 2))

/-- BTrack::initialise with a given hop size: sizes and seeds every vector,
sets the scalar parameters, and runs setHopSize. -/
def initialise (h : ℤ) : State :=
  setHopSize h
    { hopSize := h, onsetDFBufferSize := 0, beatPeriod := 0, onsetDF := [],
      cumulativeScore := [], latestCumulativeScoreValue := 0, m0 := 10,
      beatCounter := -1, beatDueInFrame := false, estimatedTempo := 120,
      resampledOnsetDF := List.replicate 512 0, acf := List.replicate 512 0,
      weightingVector := weightingVectorInit,
      combFilterBankOutput := List.replicate 128 0,
      tempoObservationVector := List.replicate 41 0,
      delta := List.replicate 41 0, prevDelta := List.replicate 41 1,
      prevDeltaFixed := List.replicate 41 0,
      tempoTransitionMatrix := tempoTransitionMatrixInit, tempoFixed := false }

/-- BTrack::processOnsetDetectionFunctionSample, opening phase: take the
absolute value of the sample, add the constant 0.0001, decrement both
counters, clear the beat flag, and append the sample to the onset buffer. -/
def processPhase1 (x : ℝ) (s : State) : State :=
  { s with m0 := s.m0 - 1, beatCounter := s.beatCounter - 1, beatDueInFrame := false,
           onsetDF := addSampleToEnd (|x| + 0.0001) s.onsetDF }

/-- BTrack::processOnsetDetectionFunctionSample after the cumulative-score
update. -/
def processPhase2 (x : ℝ) (s : State) : State :=
  updateCumulativeScore (|x| + 0.0001) (processPhase1 x s)

/-- BTrack::processOnsetDetectionFunctionSample: after the score update, run
the beat predictor when `m0` has hit 0; then, when `beatCounter` has hit 0,
raise the beat flag, resample the onset buffer (the external resampler
collaborator, passed as `resample`) and re-estimate the tempo. -/
def processOnsetDetectionFunctionSample (resample : List ℝ → List ℝ)
    (fftF fftB : List (ℝ × ℝ) → List (ℝ × ℝ)) (x : ℝ) (s : State) : State :=
  let s2 := processPhase2 x s
  let s3 := if s2.m0 = 0 then predictBeat s2 else s2
  if s3.beatCounter = 0 then
    calculateTempo fftF fftB
      { s3 with beatDueInFrame := true, resampledOnsetDF := resample s3.onsetDF }
  else s3

/-- BTrack::beatDueInCurrentFrame. -/
def beatDueInCurrentFrame (s : State) : Bool := s.beatDueInFrame

/-- BTrack::getCurrentTempoEstimate. -/
def getCurrentTempoEstimate (s : State) : ℝ := s.estimatedTempo

/-- BTrack::getHopSize. -/
def getHopSize (s : State) : ℤ := s.hopSize

/-- BTrack::getLatestCumulativeScoreValue. -/
def getLatestCumulativeScoreValue (s : State) : ℝ := s.latestCumulativeScoreValue

/-- `M` is the maximum of `f` over `0..n-1`: an upper bound that is
attained. -/
def IsRangeMax (n : ℕ) (f : ℕ → ℝ) (M : ℝ) : Prop :=
  (∀ i, i < n → f i ≤ M) ∧ ∃ i, i < n ∧ f i = M

/-- `M` is the maximum of `f` over the integer window `[lo, hi]`: an upper
bound that is attained. -/
def IsWindowMax (lo hi : ℤ) (f : ℤ → ℝ) (M : ℝ) : Prop :=
  (∀ i, lo ≤ i → i ≤ hi → f i ≤ M) ∧ ∃ i, lo ≤ i ∧ i ≤ hi ∧ f i = M

/-- The local mean stated by the specification claim for the adaptive
thresholder: the mean of the window from `i - 8` to `i + 7` clamped into
`[0, N)`. -/
def claimLocalMean (x : List ℝ) (i : ℕ) : ℝ :=
  calculateMeanOfVector x (i - 8) (min (i + 8) x.length)

/-- The adaptive thresholder as described by the claim (to be compared with
the embedded `adaptiveThreshold`). -/
def claimAdaptiveThreshold (x : List ℝ) : List ℝ :=
  List.ofFn (n := x.length) fun i => max 0 (x.getD (i : ℕ) 0 - claimLocalMean x (i : ℕ))

/-- A small concrete engine state used to instantiate theorems with
hypotheses on concrete inputs. -/
def testState : State :=
  { hopSize := 512, onsetDFBufferSize := 4, beatPeriod := 2,
    onsetDF := [0, 0, 0, 0], cumulativeScore := [0, 0, 0, 0],
    latestCumulativeScoreValue := 0, m0 := 10, beatCounter := 5,
    beatDueInFrame := false, estimatedTempo := 120, resampledOnsetDF := [],
    acf := [], weightingVector := [], combFilterBankOutput := [],
    tempoObservationVector := [], delta := [],
    prevDelta := List.replicate 41 1, prevDeltaFixed := List.replicate 41 0,
    tempoTransitionMatrix := fun _ _ => 1, tempoFixed := false }

/-- The concrete input list of length 20 on which the adaptive-threshold
claim is refuted. -/
def xC5 : List ℝ := 1 :: List.replicate 19 0

/-! ## Basic facts about the C round and list accessors -/

theorem cround_of_nonneg {x : ℝ} (h : 0 ≤ x) : cround x = round x := if_pos h

theorem cround_intCast (k : ℤ) : cround (k : ℝ) = k := by
  unfold cround
  split
  · exact round_intCast k
  · have h : ((-k : ℤ) : ℝ) = -(k : ℝ) := by push_cast; ring
    rw [← h, round_intCast]
    ring

theorem cround_natCast (p : ℕ) : cround (p : ℝ) = p := by
  rw [show ((p : ℝ)) = ((p : ℤ) : ℝ) by push_cast; ring, cround_intCast]

theorem cround_two_mul_natCast (p : ℕ) : cround (2 * (p : ℝ)) = 2 * (p : ℤ) := by
  rw [show (2 * (p : ℝ)) = (((2 * p : ℤ)) : ℝ) by push_cast; ring, cround_intCast]

theorem one_le_cround {x : ℝ} (h : 1 / 2 ≤ x) : 1 ≤ cround x := by
  rw [cround_of_nonneg (le_trans (by norm_num) h), round_eq]
  exact Int.le_floor.mpr (by push_cast; linarith)

theorem cround_half_le {p : ℕ} (hp : 1 ≤ p) : cround ((p : ℝ) / 2) ≤ (p : ℤ) := by
  have h0 : (0 : ℝ) ≤ (p : ℝ) / 2 := by positivity
  rw [cround_of_nonneg h0, round_eq]
  have h1 : (1 : ℝ) ≤ (p : ℝ) := by exact_mod_cast hp
  calc ⌊(p : ℝ) / 2 + 1 / 2⌋ ≤ ⌊(p : ℝ)⌋ := Int.floor_le_floor (by linarith)
    _ = (p : ℤ) := by exact_mod_cast Int.floor_natCast p

theorem one_le_cround_half {p : ℕ} (hp : 1 ≤ p) : 1 ≤ cround ((p : ℝ) / 2) := by
  apply one_le_cround
  have h1 : (1 : ℝ) ≤ (p : ℝ) := by exact_mod_cast hp
  linarith

theorem getD_ofFn {n : ℕ} (f : Fin n → ℝ) (i : ℕ) (h : i < n) :
    (List.ofFn f).getD i 0 = f ⟨i, h⟩ := by
  rw [List.getD_eq_getElem _ _ (by simpa using h), List.getElem_ofFn]

theorem getD_replicate_nonneg {n : ℕ} {c : ℝ} (hc : 0 ≤ c) (i : ℕ) :
    0 ≤ (List.replicate n c).getD i 0 := by
  by_cases h : i < n
  · rw [List.getD_eq_getElem _ _ (by simpa using h), List.getElem_replicate]
    exact hc
  · rw [List.getD_eq_default _ _ (by simpa using h)]

/-! ## Loop maxima as genuine maxima -/

theorem le_foldl_max {ι : Type} (f : ι → ℝ) :
    ∀ (l : List ι) (a : ℝ), a ≤ List.foldl (fun m i => max m (f i)) a l := by
  intro l
  induction l with
  | nil => intro a; simp
  | cons x xs ih =>
    intro a
    simp only [List.foldl_cons]
    exact le_trans (le_max_left a (f x)) (ih (max a (f x)))

theorem mem_le_foldl_max {ι : Type} (f : ι → ℝ) :
    ∀ (l : List ι) (a : ℝ), ∀ i ∈ l, f i ≤ List.foldl (fun m i => max m (f i)) a l := by
  intro l
  induction l with
  | nil => intro a i hi; simp at hi
  | cons x xs ih =>
    intro a i hi
    simp only [List.foldl_cons]
    rcases List.mem_cons.mp hi with h | h
    · subst h
      exact le_trans (le_max_right a (f i)) (le_foldl_max f xs _)
    · exact ih _ i h

theorem foldl_max_le {ι : Type} (f : ι → ℝ) :
    ∀ (l : List ι) (a c : ℝ), a ≤ c → (∀ i ∈ l, f i ≤ c) →
      List.foldl (fun m i => max m (f i)) a l ≤ c := by
  intro l
  induction l with
  | nil => intro a c ha _; simpa using ha
  | cons x xs ih =>
    intro a c ha h
    simp only [List.foldl_cons]
    exact ih _ c (max_le ha (h x (List.mem_cons_self x xs)))
      (fun i hi => h i (List.mem_cons_of_mem x hi))

theorem foldl_max_attained {ι : Type} (f : ι → ℝ) :
    ∀ (l : List ι) (a : ℝ), List.foldl (fun m i => max m (f i)) a l = a ∨
      ∃ i ∈ l, List.foldl (fun m i => max m (f i)) a l = f i := by
  intro l
  induction l with
  | nil => intro a; left; rfl
  | cons x xs ih =>
    intro a
    simp only [List.foldl_cons]
    rcases ih (max a (f x)) with h | ⟨i, hi, h⟩
    · rcases max_choice a (f x) with hm | hm
      · left; rw [h, hm]
      · right; exact ⟨x, List.mem_cons_self x xs, by rw [h, hm]⟩
    · right; exact ⟨i, List.mem_cons_of_mem x hi, h⟩

theorem foldl_range_isRangeMax (f : ℕ → ℝ) (a : ℝ) (n : ℕ) (hn : 0 < n)
    (ha : ∀ i, i < n → a ≤ f i) :
    IsRangeMax n f (List.foldl (fun m i => max m (f i)) a (List.range n)) := by
  constructor
  · intro i hi
    exact mem_le_foldl_max f (List.range n) a i (List.mem_range.mpr hi)
  · rcases foldl_max_attained f (List.range n) a with h | ⟨i, hi, h⟩
    · refine ⟨0, hn, le_antisymm ?_ ?_⟩
      · exact mem_le_foldl_max f (List.range n) a 0 (List.mem_range.mpr hn)
      · rw [h]; exact ha 0 hn
    · exact ⟨i, List.mem_range.mp hi, h.symm⟩

theorem argmaxLoop_spec (d : List ℝ) :
    ∀ n : ℕ, 0 < n → -1 < d.getD 0 0 →
      0 ≤ (argmaxLoop d n).1 ∧ (argmaxLoop d n).1 < (n : ℤ) ∧
      (argmaxLoop d n).2 = d.getD ((argmaxLoop d n).1).toNat 0 ∧
      ∀ j, j < n → d.getD j 0 ≤ (argmaxLoop d n).2 := by
  intro n
  induction n with
  | zero => intro h0 _; exact absurd h0 (by norm_num)
  | succ n ih =>
    intro _ h0
    have hstep : argmaxLoop d (n + 1) =
        (if d.getD n 0 > (argmaxLoop d n).2 then ((n : ℤ), d.getD n 0)
         else argmaxLoop d n) := by
      unfold argmaxLoop
      rw [List.range_succ, List.foldl_append]
      simp
    by_cases hn : n = 0
    · subst hn
      have hbase : argmaxLoop d 0 = (-1, -1) := by
        unfold argmaxLoop
        simp
      rw [hstep, hbase]
      rw [if_pos (by simpa using h0)]
      refine ⟨le_refl 0, by norm_num, by simp, ?_⟩
      intro j hj
      interval_cases j
      simp
    · have hn' : 0 < n := Nat.pos_of_ne_zero hn
      obtain ⟨ih1, ih2, ih3, ih4⟩ := ih hn' h0
      rw [hstep]
      split
      · rename_i hgt
        refine ⟨Int.natCast_nonneg n,
          by show (n : ℤ) < ((n + 1 : ℕ) : ℤ); exact_mod_cast Nat.lt_succ_self n, by simp, ?_⟩
        intro j hj
        rcases Nat.lt_succ_iff_lt_or_eq.mp hj with h | h
        · exact le_trans (ih4 j h) (le_of_lt hgt)
        · subst h; exact le_refl _
      · rename_i hle
        push_neg at hle
        refine ⟨ih1, lt_trans ih2 (by exact_mod_cast Nat.lt_succ_self n), ih3, ?_⟩
        intro j hj
        rcases Nat.lt_succ_iff_lt_or_eq.mp hj with h | h
        · exact ih4 j h
        · subst h; exact hle

/-! ## Non-negativity and length facts about the pipeline stages -/

theorem adaptiveThreshold_length (x : List ℝ) : (adaptiveThreshold x).length = x.length := by
  simp [adaptiveThreshold]

theorem adaptiveThreshold_getD_nonneg (x : List ℝ) (i : ℕ) :
    0 ≤ (adaptiveThreshold x).getD i 0 := by
  by_cases h : i < x.length
  · rw [adaptiveThreshold, getD_ofFn _ i h]
    exact le_max_left 0 _
  · rw [List.getD_eq_default _ _ (by rw [adaptiveThreshold_length]; omega)]

theorem tempoObservationAt_nonneg (x : List ℝ) (i : ℕ) :
    0 ≤ tempoObservationAt (adaptiveThreshold x) i :=
  add_nonneg (adaptiveThreshold_getD_nonneg x _) (adaptiveThreshold_getD_nonneg x _)

theorem normaliseVector_length (v : List ℝ) : (normaliseVector v).length = v.length := by
  unfold normaliseVector
  split <;> simp

theorem normaliseVector_getD_nonneg (v : List ℝ) (h : ∀ i, 0 ≤ v.getD i 0) (i : ℕ) :
    0 ≤ (normaliseVector v).getD i 0 := by
  unfold normaliseVector
  split
  · rename_i hs
    by_cases hi : i < v.length
    · rw [List.getD_eq_getElem _ _ (by simpa using hi), List.getElem_map]
      have hv := h i
      rw [List.getD_eq_getElem _ _ hi] at hv
      exact div_nonneg hv (le_of_lt hs)
    · rw [List.getD_eq_default _ _ (by simpa using hi)]
  · exact h i

theorem deltaUnnormalised_getD_nonneg (pd : List ℝ) (T : ℕ → ℕ → ℝ) (obs : List ℝ)
    (hpd : ∀ i, 0 ≤ pd.getD i 0) (hT : ∀ i j, 0 ≤ T i j)
    (hobs : ∀ j, 0 ≤ obs.getD j 0) (j : ℕ) :
    0 ≤ (deltaUnnormalised pd T obs).getD j 0 := by
  by_cases hj : j < 41
  · rw [deltaUnnormalised, getD_ofFn _ j hj]
    show 0 ≤ (List.foldl (fun m i => max m (pd.getD i 0 * T i j)) (-1) (List.range 41)) *
      obs.getD j 0
    apply mul_nonneg _ (hobs j)
    calc (0 : ℝ) ≤ pd.getD 0 0 * T 0 j := mul_nonneg (hpd 0) (hT 0 j)
      _ ≤ _ := mem_le_foldl_max (fun i => pd.getD i 0 * T i j) (List.range 41) (-1) 0 (by simp)
  · rw [List.getD_eq_default _ _ (by simp [deltaUnnormalised]; omega)]

theorem calcObs_getD_nonneg (fftF fftB : List (ℝ × ℝ) → List (ℝ × ℝ)) (s : State) (j : ℕ) :
    0 ≤ (calcObs fftF fftB s).getD j 0 := by
  by_cases hj : j < 41
  · rw [calcObs, getD_ofFn _ j hj]
    exact tempoObservationAt_nonneg _ _
  · rw [List.getD_eq_default _ _ (by simp [calcObs]; omega)]

theorem calcDelta_getD_nonneg (fftF fftB : List (ℝ × ℝ) → List (ℝ × ℝ)) (s : State)
    (hpd : ∀ i, 0 ≤ s.prevDelta.getD i 0) (hpdf : ∀ i, 0 ≤ s.prevDeltaFixed.getD i 0)
    (hT : ∀ i j, 0 ≤ s.tempoTransitionMatrix i j) (j : ℕ) :
    0 ≤ (calcDelta fftF fftB s).getD j 0 := by
  apply normaliseVector_getD_nonneg
  intro i
  apply deltaUnnormalised_getD_nonneg _ _ _ _ hT (calcObs_getD_nonneg fftF fftB s)
  intro k
  cases hfix : s.tempoFixed
  · simpa [hfix] using hpd k
  · simpa [hfix] using hpdf k

/-! ## Tempo folding (setTempo / fixTempo) -/

theorem foldDown_le_160 (t : ℝ) : foldDown t ≤ 160 := by
  induction t using foldDown.induct with
  | case1 t h ih => rw [foldDown.eq_def, if_pos h]; exact ih
  | case2 t h => rw [foldDown.eq_def, if_neg h]; linarith [not_lt.mp h]

theorem foldDown_pos (t : ℝ) : 0 < t → 0 < foldDown t := by
  induction t using foldDown.induct with
  | case1 t h ih =>
    intro ht
    rw [foldDown.eq_def, if_pos h]
    exact ih (by linarith)
  | case2 t h =>
    intro ht
    rw [foldDown.eq_def, if_neg h]
    exact ht

theorem foldUp_ge_80 (t : ℝ) : 0 < t → 80 ≤ foldUp t := by
  induction t using foldUp.induct with
  | case1 t h ih =>
    intro _
    rw [foldUp.eq_def, if_pos h]
    exact ih (by linarith [h.1])
  | case2 t h =>
    intro ht
    rw [foldUp.eq_def, if_neg h]
    have h80 : ¬ t < 80 := fun hlt => h ⟨ht, hlt⟩
    linarith [not_lt.mp h80]

theorem foldUp_le_160 (t : ℝ) : 0 < t → t ≤ 160 → foldUp t ≤ 160 := by
  induction t using foldUp.induct with
  | case1 t h ih =>
    intro _ _
    rw [foldUp.eq_def, if_pos h]
    exact ih (by linarith [h.1]) (by linarith [h.2])
  | case2 t h =>
    intro _ h160
    rw [foldUp.eq_def, if_neg h]
    exact h160

theorem foldTempo_mem {t : ℝ} (ht : 0 < t) : 80 ≤ foldTempo t ∧ foldTempo t ≤ 160 := by
  unfold foldTempo
  have h1 := foldDown_pos t ht
  have h2 := foldDown_le_160 t
  exact ⟨foldUp_ge_80 _ h1, foldUp_le_160 _ h1 h2⟩

theorem tempoIndexOf_mem {t : ℝ} (ht : 0 < t) : 0 ≤ tempoIndexOf t ∧ tempoIndexOf t ≤ 40 := by
  obtain ⟨h80, h160⟩ := foldTempo_mem ht
  unfold tempoIndexOf
  have h0 : (0 : ℝ) ≤ (foldTempo t - 80) / 2 := by linarith
  rw [cround_of_nonneg h0, round_eq]
  constructor
  · exact Int.le_floor.mpr (by push_cast; linarith)
  · calc ⌊(foldTempo t - 80) / 2 + 1 / 2⌋ ≤ ⌊(81 : ℝ) / 2⌋ := Int.floor_le_floor (by linarith)
      _ = 40 := by
        apply Int.floor_eq_iff.mpr
        constructor <;> norm_num

theorem foldTempo_170 : foldTempo (170 : ℝ) = 85 := by
  unfold foldTempo
  have h1 : foldDown (170 : ℝ) = 85 := by
    rw [foldDown.eq_def]
    norm_num
    rw [foldDown.eq_def]
    norm_num
  rw [h1, foldUp.eq_def]
  norm_num

theorem foldTempo_40 : foldTempo (40 : ℝ) = 80 := by
  unfold foldTempo
  have h1 : foldDown (40 : ℝ) = 40 := by
    rw [foldDown.eq_def]
    norm_num
  rw [h1, foldUp.eq_def]
  norm_num
  rw [foldUp.eq_def]
  norm_num

theorem set_replicate_eq_oneHot {k : ℤ} (h0 : 0 ≤ k) (h40 : k ≤ 40) :
    (List.replicate 41 (0 : ℝ)).set k.toNat 1 =
      List.ofFn (n := 41) fun i => if ((i : ℕ) : ℤ) = k then 1 else 0 := by
  apply List.ext_getElem
  · simp
  · intro i h1 h2
    rw [List.getElem_set, List.getElem_ofFn]
    simp only [Fin.val_mk]
    by_cases hk : k.toNat = i
    · rw [if_pos hk, if_pos (by omega)]
    · rw [if_neg hk, if_neg (by omega), List.getElem_replicate]

/-! ## Claim theorems -/

/-- C7: for every positive BPM argument, setTempo and fixTempo fold the
tempo by repeated halving above 160 and doubling below 80 before mapping it
to bin `round ((tempo - 80) / 2)`, producing a one-hot vector at a bin index
in 0..40; 170 BPM folds to 85 and 40 BPM folds to 80. -/
theorem tempo_folding_spec (t : ℝ) (ht : 0 < t) (s : State) :
    (80 ≤ foldTempo t ∧ foldTempo t ≤ 160) ∧
    (0 ≤ tempoIndexOf t ∧ tempoIndexOf t ≤ 40) ∧
    (fixTempo t s).prevDeltaFixed =
      (List.ofFn (n := 41) fun i => if ((i : ℕ) : ℤ) = tempoIndexOf t then 1 else 0) ∧
    (fixTempo t s).tempoFixed = true ∧
    (setTempo t s).prevDelta =
      (List.ofFn (n := 41) fun i => if ((i : ℕ) : ℤ) = tempoIndexOf t then 1 else 0) ∧
    foldTempo 170 = 85 ∧ foldTempo 40 = 80 := by
  obtain ⟨hi0, hi40⟩ := tempoIndexOf_mem ht
  refine ⟨foldTempo_mem ht, ⟨hi0, hi40⟩, ?_, rfl, ?_, foldTempo_170, foldTempo_40⟩
  · exact set_replicate_eq_oneHot hi0 hi40
  · exact set_replicate_eq_oneHot hi0 hi40

/-- C7 witness: the theorem applied at 170 BPM on a concrete state. -/
theorem tempo_folding_spec_witness :
    (0 : ℝ) < 170 ∧ foldTempo 170 = 85 ∧ (fixTempo 170 testState).tempoFixed = true := by
  have h := tempo_folding_spec 170 (by norm_num) testState
  exact ⟨by norm_num, h.2.2.2.2.2.1, h.2.2.2.1⟩

/-- C8: normaliseVector leaves an all-zero vector unchanged (the guard
`sum > 0` fails), and for every vector with positive sum divides each entry
by that sum, producing a vector summing to 1. -/
theorem normaliseVector_spec :
    (∀ n : ℕ, normaliseVector (List.replicate n (0 : ℝ)) = List.replicate n 0) ∧
    ∀ v : List ℝ, 0 < v.sum →
      normaliseVector v = v.map (fun y => y / v.sum) ∧ (normaliseVector v).sum = 1 := by
  have hsum : ∀ (v : List ℝ) (c : ℝ), (v.map (fun y => y / c)).sum = v.sum / c := by
    intro v c
    induction v with
    | nil => simp
    | cons x xs ih => simp [ih, add_div]
  constructor
  · intro n
    unfold normaliseVector
    rw [if_neg (by rw [List.sum_replicate]; simp)]
  · intro v hv
    have h1 : normaliseVector v = v.map (fun y => y / v.sum) := by
      unfold normaliseVector
      rw [if_pos hv]
    exact ⟨h1, by rw [h1, hsum, div_self (ne_of_gt hv)]⟩

/-- C8 witness: the theorem applied to the vector [2, 2]. -/
theorem normaliseVector_spec_witness :
    0 < ([2, 2] : List ℝ).sum ∧ (normaliseVector [2, 2]).sum = 1 := by
  have h : 0 < ([2, 2] : List ℝ).sum := by norm_num
  exact ⟨h, (normaliseVector_spec.2 [2, 2] h).2⟩

/-- C2 (code bug): the score-window indices are not clamped anywhere.  With
hop size 40000 (accepted by the constructor) the buffer length is
(512*512)/40000 = 6, and a tempo re-estimation whose arg-max bin is 40
(160 BPM) sets beatPeriod = round(2646000/(160*40000)) = 0; the next
cumulative-score update then reads window index
bufferSize - round(beatPeriod/2) = 6, outside the valid index range 0..5
(the embedding maps that undefined-behaviour read to the default 0).  And
whenever round(2*beatPeriod) exceeds the buffer size, the unclamped window
start is negative, e.g. index -88 for buffer size 512 and beat period 300. -/
theorem scoreWindow_unclamped_out_of_range :
    ((512 * 512 : ℤ) / 40000 = 6) ∧
    cround ((60 * 44100 : ℝ) / ((2 * 40 + 80) * 40000)) = 0 ∧
    cumulativeScoreWindowEnd 6 0 = 6 ∧
    ((6 : ℤ) ∈ scoreWindowIndices 6 0) ∧
    (∀ l : List ℝ, l.length = 6 → getScore l 6 = 0) ∧
    cumulativeScoreWindowStart 512 300 = -88 ∧
    ((-88 : ℤ) ∈ scoreWindowIndices 512 300) ∧ (-88 : ℤ) < 0 := by
  have hc0 : cround ((0 : ℝ) / 2) = 0 := by
    rw [show ((0 : ℝ) / 2) = (((0 : ℤ)) : ℝ) by norm_num, cround_intCast]
  have hc00 : cround (2 * (0 : ℝ)) = 0 := by
    rw [show (2 * (0 : ℝ)) = (((0 : ℤ)) : ℝ) by norm_num, cround_intCast]
  have hc600 : cround (2 * (300 : ℝ)) = 600 := by
    rw [show (2 * (300 : ℝ)) = (((600 : ℤ)) : ℝ) by norm_num, cround_intCast]
  have hc150 : cround ((300 : ℝ) / 2) = 150 := by
    rw [show ((300 : ℝ) / 2) = (((150 : ℤ)) : ℝ) by norm_num, cround_intCast]
  refine ⟨by decide, ?_, ?_, ?_, ?_, ?_, ?_, by norm_num⟩
  · have harg : (60 * 44100 : ℝ) / ((2 * 40 + 80) * 40000) = 2646000 / 6400000 := by
      norm_num
    rw [harg, cround_of_nonneg (by norm_num), round_eq]
    apply Int.floor_eq_zero_iff.mpr
    constructor <;> norm_num
  · rw [cumulativeScoreWindowEnd, hc0]
    norm_num
  · rw [scoreWindowIndices, Finset.mem_Icc, cumulativeScoreWindowStart,
      cumulativeScoreWindowEnd, hc0, hc00]
    omega
  · intro l hl
    rw [getScore, if_neg]
    rw [hl]
    omega
  · rw [cumulativeScoreWindowStart, hc600]
    norm_num
  · rw [scoreWindowIndices, Finset.mem_Icc, cumulativeScoreWindowStart,
      cumulativeScoreWindowEnd, hc600, hc150]
    omega

/-- C9 counterexample: reconfiguring with hop size 88200 (the public
constructor accepts any hop size) computes
beatPeriod = round(60 / ((88200/44100) * 120)) = round(1/4) = 0, so the beat
period is not strictly positive after that reconfiguration. -/
theorem setHopSize_beatPeriod_not_positive :
    (setHopSize 88200 testState).beatPeriod = 0 ∧
    ¬ (0 < (setHopSize 88200 testState).beatPeriod) := by
  have hbp : (setHopSize 88200 testState).beatPeriod = 0 := by
    show ((cround ((60 : ℝ) / ((((88200 : ℤ) : ℝ) / 44100) * 120)) : ℤ) : ℝ) = 0
    have he : (60 : ℝ) / ((((88200 : ℤ) : ℝ) / 44100) * 120) = 1 / 4 := by norm_num
    rw [he, cround_of_nonneg (by norm_num), round_eq]
    have hf : ⌊(1 : ℝ) / 4 + 1 / 2⌋ = 0 := by
      apply Int.floor_eq_zero_iff.mpr
      constructor <;> norm_num
    rw [hf]
    norm_num
  exact ⟨hbp, by rw [hbp]; norm_num⟩

/-- C9 amended: the beat period is strictly positive after construction with
the default configuration, after every reconfiguration with a hop size of at
most 44100 samples, and after every tempo re-estimation provided the hop
size is at most 33075 (so that even the 160 BPM bin rounds to a period of at
least one frame); for larger hop sizes the rounded beat period is 0. -/
theorem beatPeriod_positive_amended :
    (∀ (h : ℤ) (s : State), 1 ≤ h → h ≤ 44100 → 0 < (setHopSize h s).beatPeriod) ∧
    (0 < (initialise 512).beatPeriod) ∧
    (∀ (fftF fftB : List (ℝ × ℝ) → List (ℝ × ℝ)) (s : State),
      1 ≤ s.hopSize → s.hopSize ≤ 33075 →
      (∀ i, 0 ≤ s.prevDelta.getD i 0) → (∀ i, 0 ≤ s.prevDeltaFixed.getD i 0) →
      (∀ i j, 0 ≤ s.tempoTransitionMatrix i j) →
      0 < (calculateTempo fftF fftB s).beatPeriod) := by
  have H1 : ∀ (h : ℤ) (s : State), 1 ≤ h → h ≤ 44100 → 0 < (setHopSize h s).beatPeriod := by
    intro h s h1 h2
    show (0 : ℝ) < ((cround ((60 : ℝ) / (((h : ℝ) / 44100) * 120)) : ℤ) : ℝ)
    have hh : (0 : ℝ) < (h : ℝ) := by exact_mod_cast h1
    have hr : (h : ℝ) ≤ 44100 := by exact_mod_cast h2
    have he : (60 : ℝ) / (((h : ℝ) / 44100) * 120) = 22050 / (h : ℝ) := by
      field_simp
      ring
    have hv : (1 : ℝ) / 2 ≤ (60 : ℝ) / (((h : ℝ) / 44100) * 120) := by
      rw [he, le_div_iff₀ hh]
      linarith
    have h1r : (1 : ℝ) ≤ ((cround ((60 : ℝ) / (((h : ℝ) / 44100) * 120)) : ℤ) : ℝ) := by
      exact_mod_cast one_le_cround hv
    linarith
  refine ⟨H1, H1 512 _ (by norm_num) (by norm_num), ?_⟩
  intro fftF fftB s hh1 hh2 hpd hpdf hT
  have hd : -1 < (calcDelta fftF fftB s).getD 0 0 :=
    lt_of_lt_of_le (by norm_num) (calcDelta_getD_nonneg fftF fftB s hpd hpdf hT 0)
  obtain ⟨hmi0, hmi41, -, -⟩ := argmaxLoop_spec (calcDelta fftF fftB s) 41 (by norm_num) hd
  have hmi40 : calcMaxIndex fftF fftB s ≤ 40 := by
    rw [calcMaxIndex]
    omega
  have hmi0' : (0 : ℤ) ≤ calcMaxIndex fftF fftB s := hmi0
  show (0 : ℝ) <
    ((cround ((60 * 44100) /
      ((2 * ((calcMaxIndex fftF fftB s : ℤ) : ℝ) + 80) * (s.hopSize : ℝ))) : ℤ) : ℝ)
  have hhr : (1 : ℝ) ≤ (s.hopSize : ℝ) := by exact_mod_cast hh1
  have hhr2 : (s.hopSize : ℝ) ≤ 33075 := by exact_mod_cast hh2
  have hmr0 : (0 : ℝ) ≤ ((calcMaxIndex fftF fftB s : ℤ) : ℝ) := by exact_mod_cast hmi0'
  have hmr40 : ((calcMaxIndex fftF fftB s : ℤ) : ℝ) ≤ 40 := by exact_mod_cast hmi40
  have hden : (0 : ℝ) <
      (2 * ((calcMaxIndex fftF fftB s : ℤ) : ℝ) + 80) * (s.hopSize : ℝ) := by
    apply mul_pos (by linarith) (by linarith)
  have harg : (1 : ℝ) / 2 ≤ (60 * 44100) /
      ((2 * ((calcMaxIndex fftF fftB s : ℤ) : ℝ) + 80) * (s.hopSize : ℝ)) := by
    rw [le_div_iff₀ hden]
    have hprod : (2 * ((calcMaxIndex fftF fftB s : ℤ) : ℝ) + 80) * (s.hopSize : ℝ) ≤
        160 * 33075 :=
      mul_le_mul (by linarith) hhr2 (by linarith) (by norm_num)
    linarith
  have h1r : (1 : ℝ) ≤
      ((cround ((60 * 44100) /
        ((2 * ((calcMaxIndex fftF fftB s : ℤ) : ℝ) + 80) * (s.hopSize : ℝ))) : ℤ) : ℝ) := by
    exact_mod_cast one_le_cround harg
  linarith

/-- C9 amended witness: the amended theorem applied at hop size 512 and at a
concrete state. -/
theorem beatPeriod_positive_amended_witness :
    (1 : ℤ) ≤ 512 ∧ (512 : ℤ) ≤ 44100 ∧
    0 < (setHopSize 512 testState).beatPeriod ∧
    0 < (calculateTempo (fun l => l) (fun l => l) testState).beatPeriod := by
  refine ⟨by norm_num, by norm_num,
    beatPeriod_positive_amended.1 512 testState (by norm_num) (by norm_num), ?_⟩
  apply beatPeriod_positive_amended.2.2 (fun l => l) (fun l => l) testState
  · show (1 : ℤ) ≤ 512
    norm_num
  · show (512 : ℤ) ≤ 33075
    norm_num
  · show ∀ i, 0 ≤ (List.replicate 41 (1 : ℝ)).getD i 0
    exact getD_replicate_nonneg (by norm_num)
  · show ∀ i, 0 ≤ (List.replicate 41 (0 : ℝ)).getD i 0
    exact getD_replicate_nonneg (by norm_num)
  · intro i j
    show (0 : ℝ) ≤ 1
    norm_num

/-- The per-frame processing never touches the onset buffer after the sample
is appended: the final onset buffer is always the appended one. -/
theorem processSample_onsetDF (resample : List ℝ → List ℝ)
    (fftF fftB : List (ℝ × ℝ) → List (ℝ × ℝ)) (x : ℝ) (s : State) :
    (processOnsetDetectionFunctionSample resample fftF fftB x s).onsetDF =
      addSampleToEnd (|x| + 0.0001) s.onsetDF := by
  simp only [processOnsetDetectionFunctionSample]
  split_ifs <;> rfl

/-- C4: for every candidate beat period p in 2..127, the comb filterbank
output for period p (stored at slot p-1) is the Rayleigh weight for period p
times the sum over comb elements a = 1..4 and offsets b in [1-a, a-1] of the
autocorrelation value at lag a*p+b (stored at slot (a*p+b)-1), each inner sum
divided by 2*a-1. -/
theorem combFilterBank_spec (acf w : List ℝ) (p : ℕ) (h2 : 2 ≤ p) (h127 : p ≤ 127) :
    (calculateOutputOfCombFilterBank acf w).getD (p - 1) 0 =
      w.getD (p - 1) 0 *
        ∑ a in Finset.Icc (1 : ℕ) 4, (∑ b in Finset.Icc (1 - (a : ℤ)) ((a : ℤ) - 1),
          acfAt acf ((a : ℤ) * (p : ℤ) + b - 1)) / (2 * (a : ℝ) - 1) := by
  rw [calculateOutputOfCombFilterBank, getD_ofFn _ _ (by omega)]
  show (if 1 ≤ p - 1 ∧ p - 1 ≤ 126 then
      ∑ a in Finset.Icc (1 : ℕ) 4, ∑ b in Finset.Icc (1 - (a : ℤ)) ((a : ℤ) - 1),
        acfAt acf ((a : ℤ) * (((p - 1 : ℕ) : ℤ) + 1) + b - 1) * w.getD (p - 1) 0 /
          (2 * (a : ℝ) - 1)
    else 0) = _
  rw [if_pos (by omega)]
  have hp : (((p - 1 : ℕ) : ℤ) + 1) = (p : ℤ) := by omega
  rw [hp, Finset.mul_sum]
  apply Finset.sum_congr rfl
  intro a _
  rw [Finset.sum_div, Finset.mul_sum]
  apply Finset.sum_congr rfl
  intro b _
  ring

/-- C4 witness: the theorem applied at period 2 with empty autocorrelation
and weighting vectors, for which the output is 0. -/
theorem combFilterBank_spec_witness :
    (2 ≤ 2 ∧ 2 ≤ 127) ∧
    (calculateOutputOfCombFilterBank ([] : List ℝ) ([] : List ℝ)).getD 1 0 = 0 := by
  refine ⟨⟨le_refl 2, by norm_num⟩, ?_⟩
  have h := combFilterBank_spec [] [] 2 (le_refl 2) (by norm_num)
  rw [h]
  simp

theorem getScore_nonneg (l : List ℝ) (hnn : ∀ y ∈ l, 0 ≤ y) (k : ℤ) : 0 ≤ getScore l k := by
  rw [getScore]
  split
  · rename_i h
    have hk : k.toNat < l.length := by omega
    rw [List.getD_eq_getElem _ _ hk]
    exact hnn _ (List.getElem_mem hk)
  · exact le_refl 0

/-- The loop maximum of BTrack::updateCumulativeScore is the genuine maximum
of `score[i] * exp(-(tightness*log(-(i-B)/P))^2/2)` over the backward window
`[B - round(2P), B - round(P/2)]`, for an integral beat period `P = p ≥ 1`
whose window fits the buffer and a non-negative score buffer. -/
theorem windowMax_fold_isWindowMax (score : List ℝ) (B : ℤ) (p : ℕ)
    (hp : 1 ≤ p) (hlen : (score.length : ℤ) = B) (hwin : 2 * (p : ℤ) ≤ B)
    (hnn : ∀ y ∈ score, 0 ≤ y) :
    IsWindowMax (cumulativeScoreWindowStart B (p : ℝ)) (cumulativeScoreWindowEnd B (p : ℝ))
      (fun i => score.getD i.toNat 0 *
        Real.exp (-(tightness * Real.log (-((i : ℝ) - (B : ℝ)) / (p : ℝ))) ^ 2 / 2))
      (List.foldl (fun m (n : ℕ) =>
          max m (getScore score (cumulativeScoreWindowStart B (p : ℝ) + (n : ℤ)) *
            logGaussianWeight (p : ℝ) n)) 0
        (List.range (cumulativeScoreWindowEnd B (p : ℝ) -
          cumulativeScoreWindowStart B (p : ℝ) + 1).toNat)) := by
  have hws : cumulativeScoreWindowStart B (p : ℝ) = B - 2 * (p : ℤ) := by
    rw [cumulativeScoreWindowStart, cround_two_mul_natCast]
  have hq1 : 1 ≤ cround ((p : ℝ) / 2) := one_le_cround_half hp
  have hqp : cround ((p : ℝ) / 2) ≤ (p : ℤ) := cround_half_le hp
  have hwe : cumulativeScoreWindowEnd B (p : ℝ) = B - cround ((p : ℝ) / 2) := rfl
  have hp1 : (1 : ℤ) ≤ (p : ℤ) := by exact_mod_cast hp
  have hszpos : 0 < cumulativeScoreWindowEnd B (p : ℝ) -
      cumulativeScoreWindowStart B (p : ℝ) + 1 := by
    rw [hws, hwe]
    omega
  have hpt : ∀ n : ℕ, (n : ℤ) ≤ cumulativeScoreWindowEnd B (p : ℝ) -
      cumulativeScoreWindowStart B (p : ℝ) →
      getScore score (cumulativeScoreWindowStart B (p : ℝ) + (n : ℤ)) *
          logGaussianWeight (p : ℝ) n =
        score.getD (cumulativeScoreWindowStart B (p : ℝ) + (n : ℤ)).toNat 0 *
          Real.exp (-(tightness * Real.log
            (-(((cumulativeScoreWindowStart B (p : ℝ) + (n : ℤ) : ℤ) : ℝ) - (B : ℝ)) /
              (p : ℝ))) ^ 2 / 2) := by
    intro n hn
    rw [hws, hwe] at hn
    have hrange : 0 ≤ cumulativeScoreWindowStart B (p : ℝ) + (n : ℤ) ∧
        cumulativeScoreWindowStart B (p : ℝ) + (n : ℤ) < (score.length : ℤ) := by
      rw [hws, hlen]
      omega
    rw [getScore, if_pos hrange]
    congr 1
    have hi : ((cumulativeScoreWindowStart B (p : ℝ) + (n : ℤ) : ℤ) : ℝ) - (B : ℝ) =
        -2 * (p : ℝ) + (n : ℝ) := by
      rw [hws]
      push_cast
      ring
    rw [logGaussianWeight, hi]
  constructor
  · intro i hlo hhi
    show score.getD i.toNat 0 *
      Real.exp (-(tightness * Real.log (-((i : ℝ) - (B : ℝ)) / (p : ℝ))) ^ 2 / 2) ≤ _
    obtain ⟨n, hn⟩ : ∃ n : ℕ, (n : ℤ) = i - cumulativeScoreWindowStart B (p : ℝ) :=
      ⟨(i - cumulativeScoreWindowStart B (p : ℝ)).toNat, Int.toNat_of_nonneg (by omega)⟩
    have hnsz : n < (cumulativeScoreWindowEnd B (p : ℝ) -
        cumulativeScoreWindowStart B (p : ℝ) + 1).toNat := by omega
    have hin : cumulativeScoreWindowStart B (p : ℝ) + (n : ℤ) = i := by omega
    have heq := hpt n (by omega)
    rw [hin] at heq
    rw [← heq, ← hin]
    exact mem_le_foldl_max
      (fun n : ℕ => getScore score (cumulativeScoreWindowStart B (p : ℝ) + (n : ℤ)) *
        logGaussianWeight (p : ℝ) n)
      (List.range _) 0 n (List.mem_range.mpr hnsz)
  · rcases foldl_max_attained
      (fun n : ℕ => getScore score (cumulativeScoreWindowStart B (p : ℝ) + (n : ℤ)) *
        logGaussianWeight (p : ℝ) n)
      (List.range (cumulativeScoreWindowEnd B (p : ℝ) -
        cumulativeScoreWindowStart B (p : ℝ) + 1).toNat) 0 with hcase | hcase
    · refine ⟨cumulativeScoreWindowStart B (p : ℝ), le_refl _, by omega, ?_⟩
      show score.getD (cumulativeScoreWindowStart B (p : ℝ)).toNat 0 *
        Real.exp (-(tightness * Real.log
          (-(((cumulativeScoreWindowStart B (p : ℝ) : ℤ) : ℝ) - (B : ℝ)) /
            (p : ℝ))) ^ 2 / 2) = _
      have h0sz : 0 < (cumulativeScoreWindowEnd B (p : ℝ) -
          cumulativeScoreWindowStart B (p : ℝ) + 1).toNat := by omega
      have hg0le := mem_le_foldl_max
        (fun n : ℕ => getScore score (cumulativeScoreWindowStart B (p : ℝ) + (n : ℤ)) *
          logGaussianWeight (p : ℝ) n)
        (List.range (cumulativeScoreWindowEnd B (p : ℝ) -
          cumulativeScoreWindowStart B (p : ℝ) + 1).toNat) 0 0 (List.mem_range.mpr h0sz)
      rw [hcase] at hg0le
      have hg0ge : 0 ≤ getScore score (cumulativeScoreWindowStart B (p : ℝ) + ((0 : ℕ) : ℤ)) *
          logGaussianWeight (p : ℝ) 0 :=
        mul_nonneg (getScore_nonneg score hnn _) (le_of_lt (Real.exp_pos _))
      have hg0 : getScore score (cumulativeScoreWindowStart B (p : ℝ) + ((0 : ℕ) : ℤ)) *
          logGaussianWeight (p : ℝ) 0 = 0 := le_antisymm hg0le hg0ge
      have heq := hpt 0 (by omega)
      have hplus : cumulativeScoreWindowStart B (p : ℝ) + ((0 : ℕ) : ℤ) =
          cumulativeScoreWindowStart B (p : ℝ) := by simp
      rw [hplus] at heq hg0
      rw [← heq, hg0, hcase]
    · obtain ⟨n, hnmem, hval⟩ := hcase
      have hnsz := List.mem_range.mp hnmem
      refine ⟨cumulativeScoreWindowStart B (p : ℝ) + (n : ℤ), by omega, by omega, ?_⟩
      show score.getD (cumulativeScoreWindowStart B (p : ℝ) + (n : ℤ)).toNat 0 *
        Real.exp (-(tightness * Real.log
          (-(((cumulativeScoreWindowStart B (p : ℝ) + (n : ℤ) : ℤ) : ℝ) - (B : ℝ)) /
            (p : ℝ))) ^ 2 / 2) = _
      have heq := hpt n (by omega)
      rw [← heq, hval]

/-- C3: on every processed frame with an integral beat period p >= 1 whose
window fits the buffer, the value appended as the newest cumulative-score
entry equals (1-alpha)*onset + alpha*M, where M is the maximum over buffer
positions i in [bufferEnd-round(2P), bufferEnd-round(P/2)] of
score[i] * exp(-(tightness*ln(-lag/P))^2/2) with lag = i - bufferEnd; the
mixing coefficient alpha is 0.9 and tightness is 5, and the appended value
is what getLatestCumulativeScoreValue subsequently returns. -/
theorem updateCumulativeScore_spec (s : State) (x : ℝ) (p : ℕ)
    (hlen : s.cumulativeScore.length = s.onsetDFBufferSize)
    (hbp : s.beatPeriod = (p : ℝ)) (hp : 1 ≤ p)
    (hwin : 2 * p ≤ s.onsetDFBufferSize)
    (hnn : ∀ y ∈ s.cumulativeScore, 0 ≤ y) :
    alpha = 0.9 ∧ tightness = 5 ∧
    ∃ M : ℝ,
      IsWindowMax (cumulativeScoreWindowStart (s.onsetDFBufferSize : ℤ) s.beatPeriod)
        (cumulativeScoreWindowEnd (s.onsetDFBufferSize : ℤ) s.beatPeriod)
        (fun i => s.cumulativeScore.getD i.toNat 0 *
          Real.exp (-(tightness * Real.log
            (-((i : ℝ) - (s.onsetDFBufferSize : ℝ)) / s.beatPeriod)) ^ 2 / 2)) M ∧
      (updateCumulativeScore x s).latestCumulativeScoreValue = (1 - alpha) * x + alpha * M ∧
      getLatestCumulativeScoreValue (updateCumulativeScore x s) =
        (1 - alpha) * x + alpha * M ∧
      (updateCumulativeScore x s).cumulativeScore.getLast? =
        some ((1 - alpha) * x + alpha * M) := by
  refine ⟨rfl, rfl, ?_⟩
  have hlatest : (updateCumulativeScore x s).latestCumulativeScoreValue =
      (1 - alpha) * x + alpha *
        List.foldl (fun m (n : ℕ) =>
          max m (getScore s.cumulativeScore
            (cumulativeScoreWindowStart (s.onsetDFBufferSize : ℤ) s.beatPeriod + (n : ℤ)) *
            logGaussianWeight s.beatPeriod n)) 0
          (List.range (cumulativeScoreWindowEnd (s.onsetDFBufferSize : ℤ) s.beatPeriod -
            cumulativeScoreWindowStart (s.onsetDFBufferSize : ℤ) s.beatPeriod + 1).toNat) :=
    rfl
  have hlast : (updateCumulativeScore x s).cumulativeScore.getLast? =
      some ((updateCumulativeScore x s).latestCumulativeScoreValue) :=
    List.getLast?_concat _
  rw [hbp] at hlatest
  rw [hlatest] at hlast
  rw [hbp]
  rw [show ((s.onsetDFBufferSize : ℕ) : ℝ) = (((s.onsetDFBufferSize : ℕ) : ℤ) : ℝ) by
    push_cast
    ring]
  exact ⟨_, windowMax_fold_isWindowMax s.cumulativeScore (s.onsetDFBufferSize : ℤ) p hp
    (by exact_mod_cast hlen) (by exact_mod_cast hwin) hnn, hlatest, hlatest, hlast⟩

/-- C3 witness: the theorem applied on a concrete state with buffer size 4,
beat period 2 and an all-zero score buffer. -/
theorem updateCumulativeScore_spec_witness :
    testState.cumulativeScore.length = testState.onsetDFBufferSize ∧
    testState.beatPeriod = ((2 : ℕ) : ℝ) ∧
    1 ≤ 2 ∧ 2 * 2 ≤ testState.onsetDFBufferSize ∧
    (∀ y ∈ testState.cumulativeScore, 0 ≤ y) ∧
    getLatestCumulativeScoreValue (updateCumulativeScore 1 testState) =
      (updateCumulativeScore 1 testState).latestCumulativeScoreValue := by
  have h1 : testState.cumulativeScore.length = testState.onsetDFBufferSize := rfl
  have h2 : testState.beatPeriod = ((2 : ℕ) : ℝ) := by norm_num [testState]
  have h4 : 2 * 2 ≤ testState.onsetDFBufferSize := by norm_num [testState]
  have h5 : ∀ y ∈ testState.cumulativeScore, 0 ≤ y := by
    intro y hy
    have hy0 : y = 0 := by
      simp only [testState] at hy
      simpa using hy
    rw [hy0]
  obtain ⟨-, -, M, -, hlat, hget, -⟩ :=
    updateCumulativeScore_spec testState 1 2 h1 h2 (by norm_num) h4 h5
  exact ⟨h1, h2, by norm_num, h4, h5, by rw [hget, hlat]⟩

/-- C1: at a tempo re-estimation (with no tempo pin active), the raw delta at
bin j is the maximum over i of prevDelta[i] * transition[i][j], multiplied by
observation[j], a one-step max-product update keeping only the winning value
(no backtrace is retained anywhere in the state); delta is then normalised
and copied into the persisted prevDelta, and an arg-max bin of the result
determines the new beat period round(60*44100/((2*argmax+80)*hopSize)) and,
when that period is positive, the BPM estimate. -/
theorem calculateTempo_forward_update (fftF fftB : List (ℝ × ℝ) → List (ℝ × ℝ)) (s : State)
    (hfix : s.tempoFixed = false)
    (hpd : ∀ i, 0 ≤ s.prevDelta.getD i 0)
    (hT : ∀ i j, 0 ≤ s.tempoTransitionMatrix i j) :
    ∃ M : ℕ → ℝ,
      (∀ j, j < 41 →
        IsRangeMax 41 (fun i => s.prevDelta.getD i 0 * s.tempoTransitionMatrix i j) (M j)) ∧
      (calculateTempo fftF fftB s).delta =
        normaliseVector (List.ofFn (n := 41) fun j =>
          M (j : ℕ) * (calculateTempo fftF fftB s).tempoObservationVector.getD (j : ℕ) 0) ∧
      (calculateTempo fftF fftB s).prevDelta = (calculateTempo fftF fftB s).delta ∧
      ∃ idx : ℕ, idx < 41 ∧
        (∀ j, j < 41 →
          (calculateTempo fftF fftB s).delta.getD j 0 ≤
            (calculateTempo fftF fftB s).delta.getD idx 0) ∧
        (calculateTempo fftF fftB s).beatPeriod =
          ((cround ((60 * 44100) / ((2 * (idx : ℝ) + 80) * (s.hopSize : ℝ))) : ℤ) : ℝ) ∧
        (calculateTempo fftF fftB s).estimatedTempo =
          (if 0 < (calculateTempo fftF fftB s).beatPeriod then
            60 / (((s.hopSize : ℝ) / 44100) * (calculateTempo fftF fftB s).beatPeriod)
          else s.estimatedTempo) := by
  refine ⟨fun j => List.foldl
      (fun m i => max m (s.prevDelta.getD i 0 * s.tempoTransitionMatrix i j))
      (-1) (List.range 41), ?_, ?_, rfl, ?_⟩
  · intro j _
    exact foldl_range_isRangeMax
      (fun i => s.prevDelta.getD i 0 * s.tempoTransitionMatrix i j) (-1) 41 (by norm_num)
      (fun i _ => le_trans (by norm_num) (mul_nonneg (hpd i) (hT i j)))
  · show calcDelta fftF fftB s = _
    simp only [calcDelta, hfix, Bool.false_eq_true, if_false]
    rfl
  · have hnn : 0 ≤ (calcDelta fftF fftB s).getD 0 0 := by
      simp only [calcDelta]
      apply normaliseVector_getD_nonneg
      intro i
      apply deltaUnnormalised_getD_nonneg _ _ _ ?_ hT (calcObs_getD_nonneg fftF fftB s)
      intro k
      simp only [hfix, Bool.false_eq_true, if_false]
      exact hpd k
    have hd0 : -1 < (calcDelta fftF fftB s).getD 0 0 :=
      lt_of_lt_of_le (by norm_num) hnn
    obtain ⟨hmi0, hmi41, hval, hmax⟩ :=
      argmaxLoop_spec (calcDelta fftF fftB s) 41 (by norm_num) hd0
    refine ⟨((argmaxLoop (calcDelta fftF fftB s) 41).1).toNat, by omega, ?_, ?_, rfl⟩
    · intro j hj
      have hle := hmax j hj
      rw [hval] at hle
      exact hle
    · have hcast : ((((argmaxLoop (calcDelta fftF fftB s) 41).1).toNat : ℕ) : ℝ) =
          (((argmaxLoop (calcDelta fftF fftB s) 41).1 : ℤ) : ℝ) := by
        exact_mod_cast congrArg (fun z : ℤ => (z : ℝ))
          (Int.toNat_of_nonneg hmi0)
      show ((cround ((60 * 44100) /
          ((2 * (((argmaxLoop (calcDelta fftF fftB s) 41).1 : ℤ) : ℝ) + 80) *
            (s.hopSize : ℝ))) : ℤ) : ℝ) = _
      rw [← hcast]

/-- C1 witness: the theorem applied on a concrete state with no pin, an
all-ones previous delta vector and an all-ones transition matrix. -/
theorem calculateTempo_forward_update_witness :
    testState.tempoFixed = false ∧
    (∀ i, 0 ≤ testState.prevDelta.getD i 0) ∧
    (∀ i j, 0 ≤ testState.tempoTransitionMatrix i j) ∧
    (calculateTempo (fun l => l) (fun l => l) testState).prevDelta =
      (calculateTempo (fun l => l) (fun l => l) testState).delta := by
  have hpd : ∀ i, 0 ≤ testState.prevDelta.getD i 0 := by
    show ∀ i, 0 ≤ (List.replicate 41 (1 : ℝ)).getD i 0
    exact getD_replicate_nonneg (by norm_num)
  have hT : ∀ i j, 0 ≤ testState.tempoTransitionMatrix i j := by
    intro i j
    show (0 : ℝ) ≤ 1
    norm_num
  obtain ⟨M, -, -, hcopy, -⟩ :=
    calculateTempo_forward_update (fun l => l) (fun l => l) testState rfl hpd hT
  exact ⟨rfl, hpd, hT, hcopy⟩

/-- C5 counterexample: the claimed local-mean window (i-8 .. i+7 clamped
into [0, N)) disagrees with the code.  On the length-20 input
1, 0, ..., 0, the head window of the code starts at index 1 (excluding
index 0), so the threshold at position 0 is 0 and the output keeps the full
value 1, while the claimed window includes index 0 and yields 1 - 1/8 = 7/8;
the two thresholders therefore differ on this input. -/
theorem adaptiveThreshold_claim_counterexample :
    (adaptiveThreshold xC5).getD 0 0 = 1 ∧
    (claimAdaptiveThreshold xC5).getD 0 0 = 7 / 8 ∧
    adaptiveThreshold xC5 ≠ claimAdaptiveThreshold xC5 := by
  have hlen : xC5.length = 20 := by simp [xC5]
  have hx0 : xC5.getD 0 0 = 1 := by simp [xC5]
  have h1 : (adaptiveThreshold xC5).getD 0 0 = 1 := by
    rw [adaptiveThreshold, getD_ofFn _ 0 (by rw [hlen]; norm_num)]
    show max 0 (xC5.getD 0 0 - adaptiveThresholdValue xC5 0) = 1
    have hv : adaptiveThresholdValue xC5 0 = 0 := by
      have hstep : adaptiveThresholdValue xC5 0 = calculateMeanOfVector xC5 1 8 := by
        simp only [adaptiveThresholdValue, hlen]
        norm_num
      rw [hstep, calculateMeanOfVector, if_pos (by norm_num)]
      have hdrop : xC5.drop 1 = List.replicate 19 0 := by simp [xC5]
      rw [hdrop]
      simp [List.take_replicate, List.sum_replicate]
    rw [hv, hx0]
    norm_num
  have h2 : (claimAdaptiveThreshold xC5).getD 0 0 = 7 / 8 := by
    rw [claimAdaptiveThreshold, getD_ofFn _ 0 (by rw [hlen]; norm_num)]
    show max 0 (xC5.getD 0 0 - claimLocalMean xC5 0) = 7 / 8
    have hv : claimLocalMean xC5 0 = 1 / 8 := by
      have hstep : claimLocalMean xC5 0 = calculateMeanOfVector xC5 0 8 := by
        simp only [claimLocalMean, hlen]
        norm_num
      rw [hstep, calculateMeanOfVector, if_pos (by norm_num)]
      have htake : (xC5.drop 0).take 8 = 1 :: List.replicate 7 0 := by
        simp [xC5, List.take_succ_cons, List.take_replicate]
      rw [htake]
      simp [List.sum_replicate]
    rw [hv, hx0]
    norm_num
  refine ⟨h1, h2, ?_⟩
  intro heq
  have hcontra := congrArg (fun l : List ℝ => l.getD 0 0) heq
  simp only [h1, h2] at hcontra
  norm_num at hcontra

/-- C5 amended: adaptiveThreshold subtracts, at every position i, the local
mean the code actually computes (head region i ≤ min(N,7) and i < N-7:
indices [1, min(i+8,N)), so index 0 is excluded; bulk 7 < i < N-7: indices
[i-8, i+7), i.e. the 15 samples ending at i+6; tail i ≥ N-7: indices
[max(i-7,1), N)) and clamps negative results to 0; consequently an input
that is everywhere at or below that local mean is mapped to the all-zero
sequence. -/
theorem adaptiveThreshold_spec :
    (∀ (x : List ℝ) (i : ℕ), i < x.length →
      (adaptiveThreshold x).getD i 0 = max 0 (x.getD i 0 - adaptiveThresholdValue x i)) ∧
    ∀ x : List ℝ, (∀ i, i < x.length → x.getD i 0 ≤ adaptiveThresholdValue x i) →
      adaptiveThreshold x = List.replicate x.length 0 := by
  constructor
  · intro x i hi
    rw [adaptiveThreshold, getD_ofFn _ i hi]
  · intro x h
    apply List.eq_replicate_iff.mpr
    refine ⟨adaptiveThreshold_length x, ?_⟩
    intro b hb
    rw [adaptiveThreshold] at hb
    obtain ⟨i, hi⟩ := Set.mem_range.mp ((List.mem_ofFn _ _).mp hb)
    rw [← hi]
    have hix : (i : ℕ) < x.length := i.isLt
    exact max_eq_left (by linarith [h (i : ℕ) hix])

/-- C5 amended witness: the theorem applied to the all-zero sequence of
length 2, which is everywhere at or below its local mean. -/
theorem adaptiveThreshold_spec_witness :
    (∀ i, i < ([0, 0] : List ℝ).length →
      ([0, 0] : List ℝ).getD i 0 ≤ adaptiveThresholdValue [0, 0] i) ∧
    adaptiveThreshold ([0, 0] : List ℝ) = List.replicate ([0, 0] : List ℝ).length 0 := by
  have hcond : ∀ i, i < ([0, 0] : List ℝ).length →
      ([0, 0] : List ℝ).getD i 0 ≤ adaptiveThresholdValue [0, 0] i := by
    intro i hi
    have hi2 : i < 2 := by simpa using hi
    interval_cases i
    · norm_num [adaptiveThresholdValue, calculateMeanOfVector]
    · norm_num [adaptiveThresholdValue, calculateMeanOfVector]
  exact ⟨hcond, adaptiveThreshold_spec.2 [0, 0] hcond⟩

/-- C6: on each processed frame both countdown counters are decremented
exactly once (before any conditional); if m0 has then reached 0 the beat
predictor runs and reschedules m0 to the new beatCounter plus
round(beatPeriod/2); if beatCounter has then reached 0 the beat flag is
raised for that frame and the tempo estimator runs (which touches neither
counter nor the flag), and otherwise the flag stays false and the counters
persist; beatDueInCurrentFrame returns true exactly for the frames in which
the beat counter has reached 0. -/
theorem controller_counters_spec (resample : List ℝ → List ℝ)
    (fftF fftB : List (ℝ × ℝ) → List (ℝ × ℝ)) (x : ℝ) (s : State) :
    ((processPhase2 x s).m0 = s.m0 - 1 ∧
     (processPhase2 x s).beatCounter = s.beatCounter - 1) ∧
    (processOnsetDetectionFunctionSample resample fftF fftB x s).m0 =
      (if (processPhase2 x s).m0 = 0 then predictBeat (processPhase2 x s)
       else processPhase2 x s).m0 ∧
    (processOnsetDetectionFunctionSample resample fftF fftB x s).beatCounter =
      (if (processPhase2 x s).m0 = 0 then predictBeat (processPhase2 x s)
       else processPhase2 x s).beatCounter ∧
    ((predictBeat (processPhase2 x s)).m0 =
      (predictBeat (processPhase2 x s)).beatCounter +
        cround ((processPhase2 x s).beatPeriod / 2)) ∧
    ((processOnsetDetectionFunctionSample resample fftF fftB x s).beatDueInFrame = true ↔
      (if (processPhase2 x s).m0 = 0 then predictBeat (processPhase2 x s)
       else processPhase2 x s).beatCounter = 0) ∧
    ((processOnsetDetectionFunctionSample resample fftF fftB x s).beatDueInFrame = true ↔
      (processOnsetDetectionFunctionSample resample fftF fftB x s).beatCounter = 0) ∧
    beatDueInCurrentFrame (processOnsetDetectionFunctionSample resample fftF fftB x s) =
      (processOnsetDetectionFunctionSample resample fftF fftB x s).beatDueInFrame ∧
    (processOnsetDetectionFunctionSample resample fftF fftB x s) =
      (if (if (processPhase2 x s).m0 = 0 then predictBeat (processPhase2 x s)
           else processPhase2 x s).beatCounter = 0 then
        calculateTempo fftF fftB
          { (if (processPhase2 x s).m0 = 0 then predictBeat (processPhase2 x s)
             else processPhase2 x s) with
            beatDueInFrame := true,
            resampledOnsetDF := resample
              (if (processPhase2 x s).m0 = 0 then predictBeat (processPhase2 x s)
               else processPhase2 x s).onsetDF }
       else (if (processPhase2 x s).m0 = 0 then predictBeat (processPhase2 x s)
             else processPhase2 x s)) := by
  have hm0 : (processOnsetDetectionFunctionSample resample fftF fftB x s).m0 =
      (if (processPhase2 x s).m0 = 0 then predictBeat (processPhase2 x s)
       else processPhase2 x s).m0 := by
    simp only [processOnsetDetectionFunctionSample]
    split_ifs <;> rfl
  have hbc : (processOnsetDetectionFunctionSample resample fftF fftB x s).beatCounter =
      (if (processPhase2 x s).m0 = 0 then predictBeat (processPhase2 x s)
       else processPhase2 x s).beatCounter := by
    simp only [processOnsetDetectionFunctionSample]
    split_ifs <;> rfl
  have hflag : (processOnsetDetectionFunctionSample resample fftF fftB x s).beatDueInFrame =
      true ↔
      (if (processPhase2 x s).m0 = 0 then predictBeat (processPhase2 x s)
       else processPhase2 x s).beatCounter = 0 := by
    simp only [processOnsetDetectionFunctionSample]
    split_ifs
    · rename_i h1 h2
      exact ⟨fun _ => h2, fun _ => rfl⟩
    · rename_i h1 h2
      refine ⟨fun hcontra => ?_, fun hc => absurd hc h2⟩
      have hfalse : (predictBeat (processPhase2 x s)).beatDueInFrame = false := rfl
      rw [hfalse] at hcontra
      exact absurd hcontra (by simp)
    · rename_i h1 h2
      exact ⟨fun _ => h2, fun _ => rfl⟩
    · rename_i h1 h2
      refine ⟨fun hcontra => ?_, fun hc => absurd hc h2⟩
      have hfalse : (processPhase2 x s).beatDueInFrame = false := rfl
      rw [hfalse] at hcontra
      exact absurd hcontra (by simp)
  refine ⟨⟨rfl, rfl⟩, hm0, hbc, rfl, hflag, ?_, rfl, rfl⟩
  rw [hbc]
  exact hflag

/-- C10: for every real input, including negative values, the sample stored
in the onset history is `fabs(input) + 0.0001`, hence at least 1e-4; the
non-negative-input contract is not needed for positivity. -/
theorem processSample_stores_positive_onset (resample : List ℝ → List ℝ)
    (fftF fftB : List (ℝ × ℝ) → List (ℝ × ℝ)) (x : ℝ) (s : State) :
    (processOnsetDetectionFunctionSample resample fftF fftB x s).onsetDF.getLast? =
      some (|x| + 0.0001) ∧
    (0.0001 : ℝ) ≤ |x| + 0.0001 := by
  constructor
  · rw [processSample_onsetDF, addSampleToEnd]
    exact List.getLast?_concat _
  · linarith [abs_nonneg x]

end

end BTrack
